import Mathlib

/-!
Verification of the OSFiler graph consistency layer.

This file gives a shallow embedding of the core algorithms of the OSFiler
repository and proves (or refutes) the specification claims about them:

* the taxonomy reconciliation engine
  (`APIService.updateNodeTypes` / `updateRelationshipTypes` in
  `src/frontend/src/services/api.ts`),
* the resilient relationship-deletion protocol
  (`APIService.deleteRelationship`),
* the connectivity probes (`APIService.areNodesConnected` /
  `checkRelationshipExists`),
* the node/relationship form handlers of the Investigation page
  (`handleCreateNode` / `handleUpdateRelationship`).

The repository ships only the frontend; the REST backend (taxonomy store,
graph store) is reached through axios calls.  Where backend behaviour
decides a claim it is modelled from the specification; every such
definition carries a doc comment starting with "Modelled from the spec:".
All other definitions are direct translations of the TypeScript source.
-/

namespace OSFiler

/-! ## Character-level string helpers

The TypeScript source uses `String.prototype.trim`, `toUpperCase`,
`replace(/\s+/g, '_')`, `includes` and `split('_')`.  These are modelled
character by character so that every definition evaluates inside the
kernel.  Uppercasing is modelled on ASCII letters, which covers every
type value the application manipulates. -/

/-- ASCII uppercasing of one character (model of JS `toUpperCase`). -/
def upChar (c : Char) : Char :=
  if 'a' ≤ c ∧ c ≤ 'z' then Char.ofNat (c.toNat - 32) else c

/-- Whitespace test (model of the JS `\s` character class). -/
def isWs (c : Char) : Bool :=
  c == ' ' || c == '\t' || c == '\n' || c == '\r'

/-- Remove leading and trailing whitespace (model of JS `trim`). -/
def trimL (l : List Char) : List Char :=
  ((l.dropWhile isWs).reverse.dropWhile isWs).reverse

/-- Collapse each internal whitespace run to a single underscore
(model of JS `replace(/\s+/g, '_')` applied to a trimmed string). -/
def collapseWsAux : List Char → Bool → List Char
  | [], _ => []
  | c :: cs, prevWs =>
    if isWs c then
      if prevWs then collapseWsAux cs true
      else '_' :: collapseWsAux cs true
    else c :: collapseWsAux cs false

/-- Normalization of a type value, translated from `formatTypeValue` in
`src/frontend/src/pages/Settings.tsx`:
`value.trim().toUpperCase().replace(/\s+/g, '_')`. -/
def formatTypeValue (value : String) : String :=
  String.mk (collapseWsAux ((trimL value.toList).map upChar) false)

/-- Model of JS `String.prototype.split('_')` (split on single underscores). -/
def splitUndAux : List Char → List Char → List String
  | [], cur => [String.mk cur.reverse]
  | c :: cs, cur =>
    if c == '_' then String.mk cur.reverse :: splitUndAux cs []
    else splitUndAux cs (c :: cur)

/-- Split a string on underscores, as `id.split('_')` does. -/
def splitUnd (s : String) : List String :=
  splitUndAux s.toList []

/-- Does the list start with the given first list? (helper for `hasSubstr`). -/
def startsWithL : List Char → List Char → Bool
  | [], _ => true
  | _ :: _, [] => false
  | a :: as, b :: bs => a == b && startsWithL as bs

/-- Does the needle occur contiguously in the haystack? -/
def substrAt : List Char → List Char → Bool
  | n, [] => n.isEmpty
  | n, c :: cs => startsWithL n (c :: cs) || substrAt n cs

/-- Model of JS `hay.includes(needle)` (substring containment). -/
def hasSubstr (hay needle : String) : Bool :=
  substrAt needle.toList hay.toList

/-! ## Data model of the graph layer

Field names follow the TypeScript interfaces in
`src/frontend/src/services/api.ts`.  Timestamps, counters and other
fields that no modelled algorithm inspects are elided. -/

/-- Investigation record (`interface Investigation`); only the fields the
modelled algorithms inspect are kept: `id` and the archived flag. -/
structure Investigation where
  id : String
  is_archived : Bool
deriving DecidableEq, Repr

/-- Relationship record (`interface Relationship`).  The opaque `data`
map is carried as its serialized JSON text; numeric and timestamp fields
only influence the serialized text and are folded into `data`. -/
structure Relationship where
  id : String
  investigation_id : String
  source_node_id : String
  target_node_id : String
  type : String
  data : String
deriving DecidableEq, Repr

/-- Serialization of a relationship record, modelling
`JSON.stringify(relationship)` over the fields of the `Relationship`
interface in declaration order. -/
def serialize (r : Relationship) : String :=
  "\x7b\"id\":\"" ++ r.id ++
  "\",\"investigation_id\":\"" ++ r.investigation_id ++
  "\",\"source_node_id\":\"" ++ r.source_node_id ++
  "\",\"target_node_id\":\"" ++ r.target_node_id ++
  "\",\"type\":\"" ++ r.type ++
  "\",\"data\":" ++ r.data ++ "\x7d"

/-- Error surfaced by an API call: an HTTP transport error with a status,
or a thrown JS `Error` with a message. -/
inductive ApiErr
  | http (status : Nat)
  | js (msg : String)
deriving DecidableEq, Repr

/-- Backend call issued by the frontend during resilient deletion. -/
inductive Call
  | del (id : String)
  | listInvs
  | listRels (invId : String)
  | listBetween (a b : String)
deriving DecidableEq, Repr

/-- Oracle for the backend as seen by `APIService.deleteRelationship`:
the response to a DELETE of an id, the caller's investigations, each
investigation's relationships, and the relationships between two nodes. -/
structure ApiEnv where
  deleteResp : String → Except ApiErr Unit
  invs : List Investigation
  relsFor : String → List Relationship
  between : String → String → List Relationship

/-- Modelled from the spec: response of `GET /investigations` as requested
by `APIService.getInvestigations()` with its defaults `skip = 0`,
`limit = 100`, `include_archived = false` — archived investigations are
excluded from default listings (§3) and collection reads are paginated by
`skip`/`limit` (§6). -/
def getInvestigationsResp (env : ApiEnv) : List Investigation :=
  (((env.invs.filter (fun i => !i.is_archived)).drop 0).take 100)

/-- Modelled from the spec: response of `GET /relationships` as requested
by `APIService.getRelationshipsForInvestigation(investigationId)` with
its defaults `skip = 0`, `limit = 100`, no type filter (§6 pagination). -/
def getRelsResp (env : ApiEnv) (invId : String) : List Relationship :=
  (((env.relsFor invId).drop 0).take 100)

/-- Tier 2 scan of `APIService.deleteRelationship`: walk the listed
investigations in order; in each, fetch its relationships and look for
the first one whose serialized record contains the target id as a
substring.  Returns the first such relationship (the scan stops there)
and the list-calls issued. -/
def scanInvs (env : ApiEnv) (id : String) : List Investigation → Option Relationship × List Call
  | [] => (none, [])
  | inv :: rest =>
    match (getRelsResp env inv.id).find? (fun r => hasSubstr (serialize r) id) with
    | some r => (some r, [Call.listRels inv.id])
    | none =>
      ((scanInvs env id rest).1, Call.listRels inv.id :: (scanInvs env id rest).2)

/-- Fallback search of `APIService.deleteRelationship` (the body of the
inner `try`): tier 2 scans the listed investigations for a relationship
whose serialization contains the id and deletes it by its real id; tier 3
fires when the id contains an underscore, splits it into source and
target, and deletes the first relationship between that pair.  When every
tier fails this phase ends in `throw new Error('Relationship not found in
any investigation')`; a failing tier-3 delete is caught by the
`fallbackError` handler and falls through to the same throw. -/
def searchPhase (env : ApiEnv) (id : String) : Except ApiErr Unit × List Call :=
  let sc := scanInvs env id (getInvestigationsResp env)
  let pre := Call.listInvs :: sc.2
  match sc.1 with
  | some r =>
    match env.deleteResp r.id with
    | .ok _ => (.ok (), pre ++ [Call.del r.id])
    | .error e => (.error e, pre ++ [Call.del r.id])
  | none =>
    if hasSubstr id "_" then
      let sourceId := (splitUnd id).headD ""
      let targetId := ((splitUnd id).drop 1).headD ""
      let pre2 := pre ++ [Call.listBetween sourceId targetId]
      match env.between sourceId targetId with
      | [] => (.error (.js "Relationship not found in any investigation"), pre2)
      | r :: _ =>
        match env.deleteResp r.id with
        | .ok _ => (.ok (), pre2 ++ [Call.del r.id])
        | .error _ =>
          (.error (.js "Relationship not found in any investigation"),
            pre2 ++ [Call.del r.id])
    else (.error (.js "Relationship not found in any investigation"), pre)

/-- Translation of `APIService.deleteRelationship(id)`: attempt the
direct delete; on failure run the fallback search.  Any error raised
inside the search — including the constructed `Error('Relationship not
found in any investigation')` — is caught by the `catch (searchError)`
handler, which only logs it, after which the original direct-delete
error is rethrown. -/
def deleteRelationshipResilient (env : ApiEnv) (id : String) : Except ApiErr Unit × List Call :=
  match env.deleteResp id with
  | .ok _ => (.ok (), [Call.del id])
  | .error e =>
    let sp := searchPhase env id
    match sp.1 with
    | .ok _ => (.ok (), Call.del id :: sp.2)
    | .error _ => (.error e, Call.del id :: sp.2)

/-! ## Connectivity probes -/

/-- Modelled from the spec: the backend existence probe behind
`POST /relationships/check-exists` called by
`APIService.checkRelationshipExists(sourceId, targetId, type?)` — a
directed, optionally type-filtered existence check over the stored
relationships (§4.3). -/
def checkRelationshipExists (rels : List Relationship) (src tgt : String) (ty : Option String) : Bool :=
  rels.any (fun r =>
    r.source_node_id == src && r.target_node_id == tgt &&
    (match ty with
     | none => true
     | some t => r.type == t))

/-- Translation of `APIService.areNodesConnected(nodeId1, nodeId2)` on
the success path: the logical OR of the two directed untyped probes. -/
def areNodesConnected (rels : List Relationship) (a b : String) : Bool :=
  checkRelationshipExists rels a b none || checkRelationshipExists rels b a none

/-- Translation of `APIService.areNodesConnected` over an arbitrary
fallible probe, instrumented with the list of probe invocations in the
order they are awaited.  A rejection of either awaited probe is caught
by the surrounding `catch`, which returns `false`; the reverse probe is
awaited only after the forward probe resolved to `false`. -/
def areNodesConnectedT (probe : String → String → Except ApiErr Bool) (a b : String) :
    Bool × List (String × String) :=
  match probe a b with
  | .error _ => (false, [(a, b)])
  | .ok true => (true, [(a, b)])
  | .ok false =>
    match probe b a with
    | .error _ => (false, [(a, b), (b, a)])
    | .ok v => (v, [(a, b), (b, a)])

/-! ## Investigation-page form handlers (`src/unnamed/part_001`) -/

/-- Values of the node creation form. -/
structure NodeFormValues where
  type : String
  name : String
  data : String
deriving DecidableEq, Repr

/-- Values of the relationship edit form. -/
structure RelFormValues where
  type : String
  strength : Int
  data : String
deriving DecidableEq, Repr

/-- Observable outcome of a form handler: a silent return (no API call,
no error surfaced), the API call it issues, or an error surfaced to the
user.  The error constructor is produced only by the failure paths that
follow a successful parse (the `catch` around the awaited API call),
never by the parse failure path. -/
inductive UiOutcome
  | silent
  | createNodeCall (invId ty nm payload : String)
  | updateRelationshipCall (relId ty : String) (strength : Int) (payload : String)
  | errorSurfaced (msg : String)
deriving DecidableEq, Repr

/-- Translation of `handleCreateNode` in the Investigation page up to the
API call: bail out silently when no investigation is loaded; parse the
opaque `data` payload with `JSON.parse` (abstracted as `parseJson`) and
on a parse failure `return` silently; otherwise issue the create call. -/
def handleCreateNode (parseJson : String → Option String)
    (investigation : Option Investigation) (values : NodeFormValues) : UiOutcome :=
  match investigation with
  | none => .silent
  | some inv =>
    match parseJson values.data with
    | none => .silent
    | some payload => .createNodeCall inv.id values.type values.name payload

/-- Translation of `handleUpdateRelationship` in the Investigation page
up to the API call: bail out silently when no relationship is being
edited; parse the opaque `data` payload and on a parse failure `return`
silently; otherwise issue the update call. -/
def handleUpdateRelationship (parseJson : String → Option String)
    (relationshipToEdit : Option Relationship) (values : RelFormValues) : UiOutcome :=
  match relationshipToEdit with
  | none => .silent
  | some rel =>
    match parseJson values.data with
    | none => .silent
    | some payload => .updateRelationshipCall rel.id values.type values.strength payload

/-! ## Taxonomy model

The taxonomy store itself lives behind the REST boundary (`/types`
endpoints); its semantics is modelled from §4.1 of the spec.  The
reconciliation engine `updateTypes` is a direct translation of
`APIService.updateNodeTypes` / `updateRelationshipTypes`, which differ
only in the entity kind they pass to `createType`. -/

/-- Entity kind a type label applies to (`entity_type` of a Type). -/
inductive EntityKind
  | node
  | relationship
deriving DecidableEq, Repr

/-- Stored Type record (`interface Type`); timestamps elided. -/
structure TypeRec where
  id : Nat
  value : String
  entity_type : EntityKind
  description : Option String
  is_system : Bool
deriving DecidableEq, Repr

/-- Desired taxonomy entry (`interface TypeWithDescription`). -/
structure TypeWithDescription where
  value : String
  description : Option String
deriving DecidableEq, Repr

/-- Error kinds of the taxonomy store (§7). -/
inductive TaxErr
  | notFound
  | forbidden
  | conflict
deriving DecidableEq, Repr

/-- The Taxonomy Store state: the list of stored Type records. -/
structure TaxonomyStore where
  types : List TypeRec
deriving DecidableEq, Repr

/-- Modelled from the spec: `list(entity_type?)` of the Taxonomy Store
(§4.1) as used through `APIService.getTypes(entityType)` — all stored
types of the requested entity kind. -/
def TaxonomyStore.list (s : TaxonomyStore) (ent : EntityKind) : List TypeRec :=
  s.types.filter (fun t => t.entity_type == ent)

/-- Fresh identity for a created type: one more than the largest id in
the store, so identities never collide. -/
def freshId (s : TaxonomyStore) : Nat :=
  (s.types.map (fun t => t.id)).foldr max 0 + 1

/-- Modelled from the spec: `create(value, entity_type, description?)` of
the Taxonomy Store (§4.1) — fails with `Conflict` if `(value,
entity_type)` already exists and normalizes `value` (trim, uppercase,
internal whitespace runs to a single underscore) before storage; created
types are user-defined, not system. -/
def TaxonomyStore.createType (s : TaxonomyStore) (value : String) (ent : EntityKind)
    (desc : Option String) : Except TaxErr TaxonomyStore :=
  if s.types.any (fun t => t.value == formatTypeValue value && t.entity_type == ent) then
    .error .conflict
  else
    .ok ⟨s.types ++ [⟨freshId s, formatTypeValue value, ent, desc, false⟩]⟩

/-- Modelled from the spec: `update(id, description?)` of the Taxonomy
Store (§4.1) — fails with `Forbidden` if the type is system-protected,
with `NotFound` if the id is unknown; otherwise replaces the
description in place. -/
def TaxonomyStore.updateType (s : TaxonomyStore) (id : Nat) (desc : Option String) :
    Except TaxErr TaxonomyStore :=
  match s.types.find? (fun t => t.id == id) with
  | none => .error .notFound
  | some t =>
    if t.is_system then .error .forbidden
    else .ok ⟨s.types.map (fun u => if u.id == id then { u with description := desc } else u)⟩

/-- Modelled from the spec: `delete(id)` of the Taxonomy Store (§4.1) —
fails with `Forbidden` if the type is system-protected, with `NotFound`
if the id is unknown; otherwise removes the record. -/
def TaxonomyStore.deleteType (s : TaxonomyStore) (id : Nat) : Except TaxErr TaxonomyStore :=
  match s.types.find? (fun t => t.id == id) with
  | none => .error .notFound
  | some t =>
    if t.is_system then .error .forbidden
    else .ok ⟨s.types.filter (fun u => !(u.id == id))⟩

/-- A store mutation issued by the reconciliation engine. -/
inductive TaxOp
  | del (id : Nat)
  | upd (id : Nat) (desc : Option String)
  | cre (value : String) (desc : Option String)
deriving DecidableEq, Repr

/-- Lookup in the engine's `existingTypeMap` (a JS `Map` built by
insertion, so a later entry with the same key wins): the last record in
the list whose `value` equals the key. -/
def mapGet (ts : List TypeRec) (v : String) : Option TypeRec :=
  ts.reverse.find? (fun t => t.value == v)

/-- The `typesToDelete` filter of `updateNodeTypes`: every existing
non-system type whose `value` does not occur (by raw string equality)
among the desired entries. -/
def typesToDelete (existing : List TypeRec) (desired : List TypeWithDescription) : List TypeRec :=
  existing.filter (fun t => !t.is_system && !(desired.any (fun d => d.value == t.value)))

/-- The engine's deletion loop: `for (const typeToDelete of typesToDelete)
await this.deleteType(...)`.  Each awaited call that throws aborts the
whole function, so the loop stops at the first error; the trace records
the successfully applied operations. -/
def applyDeletes (s : TaxonomyStore) : List TypeRec → TaxonomyStore × List TaxOp × Option TaxErr
  | [] => (s, [], none)
  | t :: ts =>
    match s.deleteType t.id with
    | .ok s1 =>
      ((applyDeletes s1 ts).1, TaxOp.del t.id :: (applyDeletes s1 ts).2.1,
        (applyDeletes s1 ts).2.2)
    | .error e => (s, [], some e)

/-- The engine's create-or-update loop over the desired entries, against
the stale `existingTypeMap` `m` built before the deletions: a desired
entry matching an existing value (raw equality) is updated when its
description differs and skipped otherwise; an unmatched entry is
created.  A thrown error aborts the loop. -/
def applyUpserts (ent : EntityKind) (m : List TypeRec) (s : TaxonomyStore) :
    List TypeWithDescription → TaxonomyStore × List TaxOp × Option TaxErr
  | [] => (s, [], none)
  | d :: ds =>
    match mapGet m d.value with
    | some t =>
      if t.description == d.description then applyUpserts ent m s ds
      else
        match s.updateType t.id d.description with
        | .ok s1 =>
          ((applyUpserts ent m s1 ds).1,
            TaxOp.upd t.id d.description :: (applyUpserts ent m s1 ds).2.1,
            (applyUpserts ent m s1 ds).2.2)
        | .error e => (s, [], some e)
    | none =>
      match s.createType d.value ent d.description with
      | .ok s1 =>
        ((applyUpserts ent m s1 ds).1,
          TaxOp.cre d.value d.description :: (applyUpserts ent m s1 ds).2.1,
          (applyUpserts ent m s1 ds).2.2)
      | .error e => (s, [], some e)

/-- Translation of `APIService.updateNodeTypes` /
`updateRelationshipTypes` (they differ only in `ent`): fetch the
existing types, build the value-keyed map, delete the existing
non-system types absent from the desired list, then create or update
each desired entry.  The outer `catch` rethrows the first error, so an
error in the deletion loop prevents the create/update loop from
running.  Returns the final store, the trace of applied operations in
order, and the propagated error, if any. -/
def updateTypes (ent : EntityKind) (s : TaxonomyStore) (desired : List TypeWithDescription) :
    TaxonomyStore × List TaxOp × Option TaxErr :=
  match (applyDeletes s (typesToDelete (s.list ent) desired)).2.2 with
  | some e =>
    ((applyDeletes s (typesToDelete (s.list ent) desired)).1,
      (applyDeletes s (typesToDelete (s.list ent) desired)).2.1, some e)
  | none =>
    ((applyUpserts ent (s.list ent) (applyDeletes s (typesToDelete (s.list ent) desired)).1 desired).1,
      (applyDeletes s (typesToDelete (s.list ent) desired)).2.1 ++
        (applyUpserts ent (s.list ent) (applyDeletes s (typesToDelete (s.list ent) desired)).1 desired).2.1,
      (applyUpserts ent (s.list ent) (applyDeletes s (typesToDelete (s.list ent) desired)).1 desired).2.2)

/-- Translation of `APIService.updateNodeTypes(nodeTypes)`. -/
def updateNodeTypes (s : TaxonomyStore) (desired : List TypeWithDescription) :
    TaxonomyStore × List TaxOp × Option TaxErr :=
  updateTypes EntityKind.node s desired

/-- Translation of `APIService.updateRelationshipTypes(relationshipTypes)`. -/
def updateRelationshipTypes (s : TaxonomyStore) (desired : List TypeWithDescription) :
    TaxonomyStore × List TaxOp × Option TaxErr :=
  updateTypes EntityKind.relationship s desired

/-- Replay of a single engine operation against a store (the failing
variant leaves the store unchanged); used to state that the engine never
rolls anything back. -/
def applyOp (ent : EntityKind) (s : TaxonomyStore) : TaxOp → TaxonomyStore
  | .del i =>
    match s.deleteType i with
    | .ok s1 => s1
    | .error _ => s
  | .upd i desc =>
    match s.updateType i desc with
    | .ok s1 => s1
    | .error _ => s
  | .cre v desc =>
    match s.createType v ent desc with
    | .ok s1 => s1
    | .error _ => s

/-- Replay of an operation trace against a store. -/
def applyOps (ent : EntityKind) (s : TaxonomyStore) (ops : List TaxOp) : TaxonomyStore :=
  ops.foldl (applyOp ent) s

/-- Store well-formedness: record identities are pairwise distinct (the
`id` field is the identity of a Type, §3). -/
def Wf (s : TaxonomyStore) : Prop :=
  (s.types.map (fun t => t.id)).Nodup

/-- Boolean membership of an id in a list of ids (kept as a definition
so that the deletion characterization states a single filter). -/
def idMem : List Nat → Nat → Bool
  | [], _ => false
  | a :: as, x => (x == a) || idMem as x

/-! ## Concrete instances used by witnesses and counterexamples -/

/-- Environment whose direct delete always succeeds. -/
def envDirect : ApiEnv :=
  ⟨fun _ => .ok (), [], fun _ => [], fun _ _ => []⟩

/-- Environment where every delete fails with HTTP 404 and the caller has
no investigations: every tier of resilient deletion fails. -/
def envAllFail : ApiEnv :=
  ⟨fun _ => .error (.http 404), [], fun _ => [], fun _ _ => []⟩

/-- Filler relationship whose serialization does not contain `"XYZ"`. -/
def dummyRel : Relationship :=
  ⟨"d", "inv1", "s", "t", "T", "0"⟩

/-- Relationship number 101 of the investigation, carrying the searched
id `"XYZ"` inside its opaque `data`. -/
def targetRel : Relationship :=
  ⟨"r100", "inv1", "s", "t", "T", "\"XYZ\""⟩

/-- 101 relationships: one page of fillers followed by the target. -/
def relPage : List Relationship :=
  List.replicate 100 dummyRel ++ [targetRel]

/-- Environment where the only match lies beyond the first page of 100
relationships: direct deletes fail except for the target's real id. -/
def envPageMiss : ApiEnv :=
  ⟨fun sid => if sid == "r100" then .ok () else .error (.http 404),
   [⟨"inv1", false⟩],
   fun i => if i == "inv1" then relPage else [],
   fun _ _ => []⟩

/-- Relationship found by the tier-2 scan: its `data` contains the
client-presented id `"cid-7"`. -/
def foundRel : Relationship :=
  ⟨"realid", "invA", "s", "t", "T", "\"cid-7\""⟩

/-- Environment where the direct delete of `"cid-7"` fails but the tier-2
scan finds `foundRel` in the caller's single investigation. -/
def envTier2 : ApiEnv :=
  ⟨fun sid => if sid == "realid" then .ok () else .error (.http 404),
   [⟨"invA", false⟩],
   fun i => if i == "invA" then [foundRel] else [],
   fun _ _ => []⟩

/-- Probe that rejects in the forward direction from `"a"`. -/
def probeErrW : String → String → Except ApiErr Bool :=
  fun x _ => if x == "a" then .error (.http 500) else .ok false

/-- Parser oracle that fails on every input (models `JSON.parse` on the
unparseable payloads under consideration). -/
def parseFailAll : String → Option String :=
  fun _ => none

/-- Parser oracle succeeding only on the input `"ok"`. -/
def parseSomeW : String → Option String :=
  fun s => if s == "ok" then some "parsed" else none

/-- Investigation loaded in the page for the handler instances. -/
def invW : Investigation := ⟨"invW", false⟩

/-- Relationship being edited in the handler instances. -/
def relW : Relationship := ⟨"relW", "invW", "s", "t", "T", "\x7b\x7d"⟩

/-- Node form whose `data` payload is unparseable. -/
def badNodeVals : NodeFormValues := ⟨"PERSON", "Jane", "\x7bbad"⟩

/-- Relationship form whose `data` payload is unparseable. -/
def badRelVals : RelFormValues := ⟨"KNOWS", 1, "\x7bbad"⟩

/-- System-protected node type `PERSON`. -/
def sysPerson : TypeRec := ⟨1, "PERSON", EntityKind.node, some "p", true⟩

/-- User-defined node type `OLD`, absent from the desired lists below. -/
def oldRec : TypeRec := ⟨2, "OLD", EntityKind.node, none, false⟩

/-- Store holding the system type and a stale user type. -/
def sC1 : TaxonomyStore := ⟨[sysPerson, oldRec]⟩

/-- Desired list mentioning the system type with a different description. -/
def desiredC1 : List TypeWithDescription := [⟨"PERSON", some "q"⟩]

/-- The empty taxonomy store. -/
def sEmpty : TaxonomyStore := ⟨[]⟩

/-- Desired list whose single value is lowercase (not normalized). -/
def desiredLower : List TypeWithDescription := [⟨"person", none⟩]

/-- Store holding the user-defined node type `PERSON`. -/
def sPerson : TaxonomyStore := ⟨[⟨1, "PERSON", EntityKind.node, none, false⟩]⟩

/-- Store holding only the system type `PERSON`. -/
def sC2 : TaxonomyStore := ⟨[sysPerson]⟩

/-- Normalized, distinct desired list matching the system type's
description and adding one new value. -/
def desiredC2 : List TypeWithDescription := [⟨"PERSON", some "p"⟩, ⟨"NEW", none⟩]

/-- Desired list that hits the system type with a changed description and
then asks for a new value. -/
def desiredC4 : List TypeWithDescription := [⟨"PERSON", some "q"⟩, ⟨"NEW", none⟩]

/-! ## Supporting lemmas for the deletion protocol -/

/-- Every call recorded by the tier-2 scan is a relationship listing. -/
theorem scanInvs_calls_shape (env : ApiEnv) (id : String) :
    ∀ l : List Investigation, ∀ c ∈ (scanInvs env id l).2, ∃ i, c = Call.listRels i := by
  intro l
  induction l with
  | nil => intro c hc; simp [scanInvs] at hc
  | cons inv rest ih =>
    intro c hc
    rw [scanInvs] at hc
    rcases hfind : (getRelsResp env inv.id).find? (fun r => hasSubstr (serialize r) id) with _ | r
    · rw [hfind] at hc
      simp only [List.mem_cons] at hc
      rcases hc with hc | hc
      · exact ⟨inv.id, hc⟩
      · exact ih c hc
    · rw [hfind] at hc
      simp only [List.mem_singleton] at hc
      exact ⟨inv.id, hc⟩

/-! ## Claim theorems: resilient relationship deletion -/

/-- C5: when the direct delete, the tier-2 scan and the underscore
fallback all fail, `deleteRelationship` does NOT surface the `NotFound`
error "Relationship not found in any investigation" to the caller: that
error is constructed and thrown, but the function's own
`catch (searchError)` swallows it and the original direct-delete error
(here HTTP 404) is rethrown instead. -/
theorem deleteRelationship_all_fail_rethrows_original :
    deleteRelationshipResilient envAllFail "ghost" =
      (.error (.http 404), [Call.del "ghost", Call.listInvs]) ∧
    ApiErr.http 404 ≠ ApiErr.js "Relationship not found in any investigation" := by
  exact ⟨rfl, by decide⟩

/-- C6 counterexample: tier 2 does not enumerate ALL relationships of an
investigation — it requests a single page of 100.  In `envPageMiss` the
investigation holds 101 relationships, the 101st contains the searched
id `"XYZ"` in its serialization and its direct delete would succeed, yet
the call scans only the first page, finds nothing, and ends with the
original error without deleting anything. -/
theorem deleteRelationship_tier2_misses_beyond_page :
    (envPageMiss.relsFor "inv1").any (fun r => hasSubstr (serialize r) "XYZ") = true ∧
    envPageMiss.deleteResp "r100" = .ok () ∧
    deleteRelationshipResilient envPageMiss "XYZ" =
      (.error (.http 404), [Call.del "XYZ", Call.listInvs, Call.listRels "inv1"]) := by
  exact ⟨by decide, rfl, rfl⟩

/-- C6 (amended): tier 2 enumerates the first page (up to 100) of the
caller's non-archived investigations and, within each, the first page
(up to 100) of its relationships; the first relationship in scan order
whose serialized record contains the given id as a substring is deleted
by its real id, after which the call returns successfully — tier 3 is
never consulted. -/
theorem deleteRelationship_tier2_first_match (env : ApiEnv) (id : String) (e : ApiErr)
    (r : Relationship)
    (hdirect : env.deleteResp id = .error e)
    (hscan : (scanInvs env id (getInvestigationsResp env)).1 = some r)
    (hdel : env.deleteResp r.id = .ok ()) :
    deleteRelationshipResilient env id =
      (.ok (), Call.del id :: Call.listInvs ::
        ((scanInvs env id (getInvestigationsResp env)).2 ++ [Call.del r.id])) ∧
    ∀ a b, Call.listBetween a b ∉ (deleteRelationshipResilient env id).2 := by
  have hrun : deleteRelationshipResilient env id =
      (.ok (), Call.del id :: Call.listInvs ::
        ((scanInvs env id (getInvestigationsResp env)).2 ++ [Call.del r.id])) := by
    simp only [deleteRelationshipResilient, searchPhase, hdirect, hscan, hdel]
    simp
  refine ⟨hrun, ?_⟩
  intro a b hmem
  rw [hrun] at hmem
  simp only [List.mem_cons, List.mem_append, List.mem_singleton, List.not_mem_nil,
    or_false] at hmem
  rcases hmem with h | h | h | h
  · exact Call.noConfusion h
  · exact Call.noConfusion h
  · obtain ⟨i, hi⟩ := scanInvs_calls_shape env id (getInvestigationsResp env) _ h
    exact Call.noConfusion hi
  · exact Call.noConfusion h

/-- C6 witness: in `envTier2` the direct delete of `"cid-7"` fails, the
scan finds `foundRel`, and the protocol deletes it by its real id. -/
theorem deleteRelationship_tier2_first_match_witness :
    deleteRelationshipResilient envTier2 "cid-7" =
      (.ok (), Call.del "cid-7" :: Call.listInvs ::
        ((scanInvs envTier2 "cid-7" (getInvestigationsResp envTier2)).2 ++
          [Call.del "realid"])) :=
  (deleteRelationship_tier2_first_match envTier2 "cid-7" (.http 404) foundRel
    rfl rfl rfl).1

/-- C7: if the direct delete of the given id succeeds, resilient deletion
stops there: the only backend call made is that delete — no
investigation or relationship enumeration happens. -/
theorem deleteRelationship_direct_success_stops (env : ApiEnv) (id : String)
    (h : env.deleteResp id = .ok ()) :
    deleteRelationshipResilient env id = (.ok (), [Call.del id]) := by
  simp [deleteRelationshipResilient, h]

/-- C7 witness: in `envDirect` the direct delete succeeds and the trace
is the single delete call. -/
theorem deleteRelationship_direct_success_stops_witness :
    deleteRelationshipResilient envDirect "r1" = (.ok (), [Call.del "r1"]) :=
  deleteRelationship_direct_success_stops envDirect "r1" rfl

/-! ## Claim theorems: connectivity probes -/

/-- C8: `areNodesConnected` is symmetric in its two node arguments: it is
the OR of the two directed existence probes, and OR commutes. -/
theorem areNodesConnected_symm (rels : List Relationship) (a b : String) :
    areNodesConnected rels a b = areNodesConnected rels b a := by
  simp only [areNodesConnected]
  exact Bool.or_comm _ _

/-- C10: a rejection of an awaited probe makes `areNodesConnected`
resolve to `false` instead of propagating the error (whether the forward
probe rejects, or the forward probe returns `false` and the reverse one
rejects), and the reverse-direction probe is awaited exactly when the
forward probe resolved to `false`. -/
theorem areNodesConnected_error_false_short_circuit
    (probe : String → String → Except ApiErr Bool) (a b : String) :
    (∀ e, probe a b = .error e → (areNodesConnectedT probe a b).1 = false) ∧
    (∀ e, probe a b = .ok false → probe b a = .error e →
      (areNodesConnectedT probe a b).1 = false) ∧
    ((areNodesConnectedT probe a b).2 = [(a, b), (b, a)] ↔ probe a b = .ok false) := by
  refine ⟨?_, ?_, ?_, ?_⟩
  · intro e he
    simp [areNodesConnectedT, he]
  · intro e hf hr
    simp [areNodesConnectedT, hf, hr]
  · intro ht
    rcases hf : probe a b with e | v
    · simp only [areNodesConnectedT, hf] at ht
      simp at ht
    · rcases v with _ | _
      · rfl
      · simp only [areNodesConnectedT, hf] at ht
        simp at ht
  · intro hf
    rcases hr : probe b a with e2 | v2
    · simp [areNodesConnectedT, hf, hr]
    · simp [areNodesConnectedT, hf, hr]

/-- C10 witness: with a probe rejecting in the forward direction the
call resolves to `false`. -/
theorem areNodesConnected_error_false_short_circuit_witness :
    (areNodesConnectedT probeErrW "a" "b").1 = false :=
  (areNodesConnected_error_false_short_circuit probeErrW "a" "b").1 (.http 500) rfl

/-! ## Claim theorems: unparseable opaque data payloads -/

/-- C9 counterexample: with an unparseable `data` payload, the node
creation handler and the relationship update handler both return
silently — no API call is made and no error of any kind (in particular
no `Invalid`) is surfaced, refuting "unparseable opaque `data` is
rejected as `Invalid`; no operation silently no-ops on error". -/
theorem unparseable_data_silent_noop :
    handleCreateNode parseFailAll (some invW) badNodeVals = .silent ∧
    handleUpdateRelationship parseFailAll (some relW) badRelVals = .silent :=
  ⟨rfl, rfl⟩

/-- C9 (amended): whenever `JSON.parse` fails on the opaque `data`
payload, `handleCreateNode` and `handleUpdateRelationship` return
silently: the operation is not performed and no error is surfaced to the
caller. -/
theorem unparseable_data_silent (parse : String → Option String) (inv : Investigation)
    (rel : Relationship) (nv : NodeFormValues) (rv : RelFormValues)
    (hn : parse nv.data = none) (hr : parse rv.data = none) :
    handleCreateNode parse (some inv) nv = .silent ∧
    handleUpdateRelationship parse (some rel) rv = .silent := by
  constructor
  · simp [handleCreateNode, hn]
  · simp [handleUpdateRelationship, hr]

/-- C9 witness: the amended statement at a parser that fails on the
concrete payloads in use. -/
theorem unparseable_data_silent_witness :
    handleCreateNode parseSomeW (some invW) badNodeVals = .silent ∧
    handleUpdateRelationship parseSomeW (some relW) badRelVals = .silent :=
  unparseable_data_silent parseSomeW invW relW badNodeVals badRelVals rfl rfl

/-! ## Supporting lemmas for the taxonomy engine -/

/-- Boolean id membership agrees with list membership. -/
theorem idMem_iff (l : List Nat) (x : Nat) : idMem l x = true ↔ x ∈ l := by
  induction l with
  | nil => simp [idMem]
  | cons a as ih => simp [idMem, ih]

/-- Every member of a list of naturals is bounded by its `foldr max 0`. -/
theorem le_foldr_max (l : List Nat) (x : Nat) (hx : x ∈ l) : x ≤ l.foldr max 0 := by
  induction l with
  | nil => cases hx
  | cons a as ih =>
    rcases List.mem_cons.mp hx with h | h
    · subst h; exact le_max_left _ _
    · exact le_trans (ih h) (le_max_right _ _)

/-- The fresh id of a store does not occur among its ids. -/
theorem freshId_not_mem (s : TaxonomyStore) : freshId s ∉ s.types.map (fun t => t.id) := by
  intro hmem
  have h := le_foldr_max _ _ hmem
  rw [freshId] at h
  omega

/-- On a list with pairwise-distinct ids, searching for a member's id
finds exactly that member. -/
theorem find_id_of_nodup (l : List TypeRec) (t : TypeRec)
    (hnd : (l.map (fun x => x.id)).Nodup) (ht : t ∈ l) :
    l.find? (fun u => u.id == t.id) = some t := by
  induction l with
  | nil => cases ht
  | cons a as ih =>
    rcases List.mem_cons.mp ht with h | h
    · subst h
      exact List.find?_cons_of_pos _ (by simp)
    · rw [List.map_cons, List.nodup_cons] at hnd
      have hne : ¬(a.id == t.id) = true := by
        intro hbeq
        have heq : a.id = t.id := by simpa using hbeq
        exact hnd.1 (heq ▸ List.mem_map.mpr ⟨t, h, rfl⟩)
      have hstep : List.find? (fun u => u.id == t.id) (a :: as) =
          List.find? (fun u => u.id == t.id) as :=
        List.find?_cons_of_neg _ hne
      exact hstep.trans (ih hnd.2 h)

/-- On a list with pairwise-distinct ids, members are determined by their id. -/
theorem nodup_id_inj (l : List TypeRec) (u w : TypeRec)
    (hnd : (l.map (fun x => x.id)).Nodup) (hu : u ∈ l) (hw : w ∈ l) (h : u.id = w.id) :
    u = w := by
  have h1 := find_id_of_nodup l u hnd hu
  have h2 := find_id_of_nodup l w hnd hw
  rw [h] at h1
  rw [h1] at h2
  exact Option.some.inj h2

/-- Characterization of a successful store delete. -/
theorem deleteType_ok (s : TaxonomyStore) (i : Nat) (s1 : TaxonomyStore)
    (h : s.deleteType i = .ok s1) :
    ∃ u, s.types.find? (fun t => t.id == i) = some u ∧ u.is_system = false ∧
      s1.types = s.types.filter (fun x => !(x.id == i)) := by
  unfold TaxonomyStore.deleteType at h
  rcases hf : s.types.find? (fun t => t.id == i) with _ | u
  · rw [hf] at h
    exact absurd h (by simp)
  · rw [hf] at h
    dsimp only at h
    by_cases hs : u.is_system = true
    · rw [if_pos hs] at h
      exact absurd h (by simp)
    · rw [if_neg hs] at h
      refine ⟨u, hf, by simpa using hs, ?_⟩
      cases h
      rfl

/-- Characterization of a successful store update. -/
theorem updateType_ok (s : TaxonomyStore) (i : Nat) (desc : Option String) (s1 : TaxonomyStore)
    (h : s.updateType i desc = .ok s1) :
    ∃ u, s.types.find? (fun t => t.id == i) = some u ∧ u.is_system = false ∧
      s1.types = s.types.map (fun x => if x.id == i then { x with description := desc } else x) := by
  unfold TaxonomyStore.updateType at h
  rcases hf : s.types.find? (fun t => t.id == i) with _ | u
  · rw [hf] at h
    exact absurd h (by simp)
  · rw [hf] at h
    dsimp only at h
    by_cases hs : u.is_system = true
    · rw [if_pos hs] at h
      exact absurd h (by simp)
    · rw [if_neg hs] at h
      refine ⟨u, hf, by simpa using hs, ?_⟩
      cases h
      rfl

/-- Characterization of a successful store create. -/
theorem createType_ok (s : TaxonomyStore) (v : String) (ent : EntityKind)
    (desc : Option String) (s1 : TaxonomyStore)
    (h : s.createType v ent desc = .ok s1) :
    (s.types.any (fun t => t.value == formatTypeValue v && t.entity_type == ent)) = false ∧
    s1.types = s.types ++ [⟨freshId s, formatTypeValue v, ent, desc, false⟩] := by
  unfold TaxonomyStore.createType at h
  by_cases hc : (s.types.any (fun t => t.value == formatTypeValue v && t.entity_type == ent)) = true
  · rw [if_pos hc] at h
    exact absurd h (by simp)
  · rw [if_neg hc] at h
    refine ⟨by simpa using hc, ?_⟩
    cases h
    rfl

/-- A description update leaves the list of ids unchanged. -/
theorem ids_map_upd (l : List TypeRec) (i : Nat) (desc : Option String) :
    (l.map (fun x => if x.id == i then { x with description := desc } else x)).map
        (fun t => t.id)
      = l.map (fun t => t.id) := by
  induction l with
  | nil => rfl
  | cons a as ih =>
    simp only [List.map_cons, ih, List.cons.injEq, and_true]
    by_cases h : (a.id == i) = true
    · simp [h]
    · simp [h]

/-- A description update commutes with the entity filter. -/
theorem filter_map_upd (l : List TypeRec) (i : Nat) (desc : Option String) (ent : EntityKind) :
    (l.map (fun x => if x.id == i then { x with description := desc } else x)).filter
        (fun t => t.entity_type == ent)
      = (l.filter (fun t => t.entity_type == ent)).map
          (fun x => if x.id == i then { x with description := desc } else x) := by
  have hcomm : ((fun t : TypeRec => t.entity_type == ent) ∘
      (fun x : TypeRec => if x.id == i then { x with description := desc } else x)) =
      (fun t : TypeRec => t.entity_type == ent) := by
    funext x
    by_cases hx : (x.id == i) = true
    · simp [Function.comp, hx]
    · simp [Function.comp, hx]
  rw [List.filter_map, hcomm]

/-- A lookup hit is a member whose value is the key. -/
theorem mapGet_mem (ts : List TypeRec) (v : String) (t : TypeRec)
    (h : mapGet ts v = some t) : t ∈ ts ∧ t.value = v := by
  unfold mapGet at h
  refine ⟨List.mem_reverse.mp (List.mem_of_find?_eq_some h), ?_⟩
  have hp := List.find?_some h
  simpa using hp

/-- A lookup misses exactly when no member has the key as its value. -/
theorem mapGet_eq_none (ts : List TypeRec) (v : String) :
    mapGet ts v = none ↔ ∀ t ∈ ts, ¬(t.value = v) := by
  simp [mapGet, List.find?_eq_none, List.mem_reverse]

/-- Filtering away only elements with other values does not change a
`find?` by value. -/
theorem find_value_filter (lr : List TypeRec) (p : TypeRec → Bool) (v : String)
    (h : ∀ t ∈ lr, t.value = v → p t = true) :
    (lr.filter p).find? (fun t => t.value == v) = lr.find? (fun t => t.value == v) := by
  induction lr with
  | nil => rfl
  | cons a as ih =>
    have ih2 := ih (fun t ht hv => h t (List.mem_cons_of_mem a ht) hv)
    by_cases hv : (a.value == v) = true
    · have hpa : p a = true := h a (List.mem_cons_self a as) (by simpa using hv)
      rw [List.filter_cons_of_pos hpa]
      have h1 : List.find? (fun t => t.value == v) (a :: as.filter p) = some a :=
        List.find?_cons_of_pos _ hv
      have h2 : List.find? (fun t => t.value == v) (a :: as) = some a :=
        List.find?_cons_of_pos _ hv
      rw [h1, h2]
    · have h2 : List.find? (fun t => t.value == v) (a :: as) =
          List.find? (fun t => t.value == v) as :=
        List.find?_cons_of_neg _ hv
      by_cases hpa : p a = true
      · rw [List.filter_cons_of_pos hpa]
        have h1 : List.find? (fun t => t.value == v) (a :: as.filter p) =
            List.find? (fun t => t.value == v) (as.filter p) :=
          List.find?_cons_of_neg _ hv
        rw [h1, h2]
        exact ih2
      · rw [List.filter_cons_of_neg (by simpa using hpa), h2]
        exact ih2

/-- `mapGet` version of `find_value_filter`. -/
theorem mapGet_filter (l : List TypeRec) (p : TypeRec → Bool) (v : String)
    (h : ∀ t ∈ l, t.value = v → p t = true) :
    mapGet (l.filter p) v = mapGet l v := by
  unfold mapGet
  have hrev : (l.filter p).reverse = l.reverse.filter p := by
    simp [List.filter_reverse]
  rw [hrev]
  exact find_value_filter l.reverse p v (fun t ht hv => h t (List.mem_reverse.mp ht) hv)

/-- Mapping a value-preserving function that fixes every element carrying
the key does not change a `find?` by value. -/
theorem find_value_map_fix (lr : List TypeRec) (f : TypeRec → TypeRec) (v : String)
    (hval : ∀ u ∈ lr, (f u).value = u.value)
    (hfix : ∀ u ∈ lr, u.value = v → f u = u) :
    (lr.map f).find? (fun t => t.value == v) = lr.find? (fun t => t.value == v) := by
  induction lr with
  | nil => rfl
  | cons a as ih =>
    have hva := hval a (List.mem_cons_self a as)
    have ih2 := ih (fun u hu => hval u (List.mem_cons_of_mem a hu))
      (fun u hu hv => hfix u (List.mem_cons_of_mem a hu) hv)
    rw [List.map_cons]
    by_cases hv : (a.value == v) = true
    · have h1 : List.find? (fun t => t.value == v) (f a :: as.map f) = some (f a) :=
        List.find?_cons_of_pos _ (by simpa [hva] using hv)
      have h2 : List.find? (fun t => t.value == v) (a :: as) = some a :=
        List.find?_cons_of_pos _ hv
      rw [h1, h2, hfix a (List.mem_cons_self a as) (by simpa using hv)]
    · have h1 : List.find? (fun t => t.value == v) (f a :: as.map f) =
          List.find? (fun t => t.value == v) (as.map f) :=
        List.find?_cons_of_neg _ (by simpa [hva] using hv)
      have h2 : List.find? (fun t => t.value == v) (a :: as) =
          List.find? (fun t => t.value == v) as :=
        List.find?_cons_of_neg _ hv
      rw [h1, h2]
      exact ih2

/-- Mapping a value-preserving function over a list maps its `find?` hit. -/
theorem find_value_map_some (lr : List TypeRec) (f : TypeRec → TypeRec) (v : String)
    (t : TypeRec)
    (hval : ∀ u ∈ lr, (f u).value = u.value)
    (h : lr.find? (fun t => t.value == v) = some t) :
    (lr.map f).find? (fun t => t.value == v) = some (f t) := by
  induction lr with
  | nil => simp at h
  | cons a as ih =>
    have hva := hval a (List.mem_cons_self a as)
    have ih2 := ih (fun u hu => hval u (List.mem_cons_of_mem a hu))
    rw [List.map_cons]
    by_cases hv : (a.value == v) = true
    · have h2 : List.find? (fun t => t.value == v) (a :: as) = some a :=
        List.find?_cons_of_pos _ hv
      rw [h2] at h
      have ha : a = t := Option.some.inj h
      subst ha
      exact List.find?_cons_of_pos _ (by simpa [hva] using hv)
    · have h2 : List.find? (fun t => t.value == v) (a :: as) =
          List.find? (fun t => t.value == v) as :=
        List.find?_cons_of_neg _ hv
      rw [h2] at h
      have h1 : List.find? (fun t => t.value == v) (f a :: as.map f) =
          List.find? (fun t => t.value == v) (as.map f) :=
        List.find?_cons_of_neg _ (by simpa [hva] using hv)
      rw [h1]
      exact ih2 h

/-- `mapGet` version of `find_value_map_fix`. -/
theorem mapGet_map_fix (l : List TypeRec) (f : TypeRec → TypeRec) (v : String)
    (hval : ∀ u ∈ l, (f u).value = u.value)
    (hfix : ∀ u ∈ l, u.value = v → f u = u) :
    mapGet (l.map f) v = mapGet l v := by
  unfold mapGet
  have hrev : (l.map f).reverse = l.reverse.map f := by
    simp [List.map_reverse]
  rw [hrev]
  exact find_value_map_fix l.reverse f v
    (fun u hu => hval u (List.mem_reverse.mp hu))
    (fun u hu hv => hfix u (List.mem_reverse.mp hu) hv)

/-- `mapGet` version of `find_value_map_some`. -/
theorem mapGet_map_some (l : List TypeRec) (f : TypeRec → TypeRec) (v : String) (t : TypeRec)
    (hval : ∀ u ∈ l, (f u).value = u.value)
    (h : mapGet l v = some t) :
    mapGet (l.map f) v = some (f t) := by
  unfold mapGet at h ⊢
  have hrev : (l.map f).reverse = l.reverse.map f := by
    simp [List.map_reverse]
  rw [hrev]
  exact find_value_map_some l.reverse f v t (fun u hu => hval u (List.mem_reverse.mp hu)) h

/-- Appending a record with another value does not change a lookup. -/
theorem mapGet_append_ne (l : List TypeRec) (t0 : TypeRec) (v : String)
    (h : ¬(t0.value = v)) :
    mapGet (l ++ [t0]) v = mapGet l v := by
  unfold mapGet
  rw [List.reverse_append]
  have h1 : List.find? (fun t => t.value == v) (t0 :: l.reverse) =
      List.find? (fun t => t.value == v) l.reverse :=
    List.find?_cons_of_neg _ (by simpa using h)
  simpa using h1

/-- Appending a record carrying the key makes it the lookup result. -/
theorem mapGet_append_eq (l : List TypeRec) (t0 : TypeRec) (v : String)
    (h : t0.value = v) :
    mapGet (l ++ [t0]) v = some t0 := by
  unfold mapGet
  rw [List.reverse_append]
  have h1 : List.find? (fun t => t.value == v) (t0 :: l.reverse) = some t0 :=
    List.find?_cons_of_pos _ (by simpa using h)
  simpa using h1

/-- Characterization of the deletion phase on a well-formed store: when
the targets are distinct non-system members, every delete succeeds, the
trace lists them in order, and the final store is the initial one with
the targeted ids filtered out. -/
theorem applyDeletes_char : ∀ (ds : List TypeRec) (s : TaxonomyStore),
    (s.types.map (fun t => t.id)).Nodup →
    (∀ t ∈ ds, t ∈ s.types ∧ t.is_system = false) →
    (ds.map (fun t => t.id)).Nodup →
    applyDeletes s ds =
      (⟨s.types.filter (fun u => !(idMem (ds.map (fun t => t.id)) u.id))⟩,
        ds.map (fun t => TaxOp.del t.id), none) := by
  intro ds
  induction ds with
  | nil =>
    intro s _ _ _
    have hfil : s.types.filter (fun u => !(idMem [] u.id)) = s.types := by
      simp [idMem]
    simp only [applyDeletes, List.map_nil, hfil]
  | cons t ts ih =>
    intro s hnd hmem hdnd
    have htm := (hmem t (List.mem_cons_self _ _)).1
    have hts := (hmem t (List.mem_cons_self _ _)).2
    have hfind : s.types.find? (fun u => u.id == t.id) = some t :=
      find_id_of_nodup _ _ hnd htm
    have hdel : s.deleteType t.id = .ok ⟨s.types.filter (fun x => !(x.id == t.id))⟩ := by
      unfold TaxonomyStore.deleteType
      rw [hfind]
      dsimp only
      rw [if_neg (by simp [hts])]
    rw [List.map_cons, List.nodup_cons] at hdnd
    have hsub : List.Sublist
        ((s.types.filter (fun x => !(x.id == t.id))).map (fun t => t.id))
        (s.types.map (fun t => t.id)) :=
      (List.filter_sublist _).map _
    have hnd1 : ((s.types.filter (fun x => !(x.id == t.id))).map (fun t => t.id)).Nodup :=
      hnd.sublist hsub
    have hmem1 : ∀ u ∈ ts, u ∈ s.types.filter (fun x => !(x.id == t.id)) ∧ u.is_system = false := by
      intro u hu
      have hu1 := hmem u (List.mem_cons_of_mem t hu)
      refine ⟨List.mem_filter.mpr ⟨hu1.1, ?_⟩, hu1.2⟩
      have hne : ¬(u.id = t.id) := by
        intro heq
        exact hdnd.1 (heq ▸ List.mem_map.mpr ⟨u, hu, rfl⟩)
      simpa using hne
    have ihr := ih ⟨s.types.filter (fun x => !(x.id == t.id))⟩ hnd1 hmem1 hdnd.2
    have hff : (s.types.filter (fun x => !(x.id == t.id))).filter
          (fun u => !(idMem (ts.map (fun x => x.id)) u.id))
        = s.types.filter (fun u => !(idMem (t.id :: ts.map (fun x => x.id)) u.id)) := by
      rw [List.filter_filter]
      refine List.filter_congr ?_
      intro a _
      simp [idMem, Bool.not_or, Bool.and_comm]
    simp only [applyDeletes, hdel, ihr, List.map_cons, hff]

/-- System types survive the deletion loop in every branch (success or
abort), and id-distinctness is preserved. -/
theorem applyDeletes_pres_system : ∀ (ds : List TypeRec) (s : TaxonomyStore) (t : TypeRec),
    (s.types.map (fun x => x.id)).Nodup → t ∈ s.types → t.is_system = true →
    t ∈ (applyDeletes s ds).1.types ∧
      ((applyDeletes s ds).1.types.map (fun x => x.id)).Nodup := by
  intro ds
  induction ds with
  | nil =>
    intro s t hnd ht _
    exact ⟨ht, hnd⟩
  | cons d rest ih =>
    intro s t hnd ht hsys
    rcases hdel : s.deleteType d.id with e | s1
    · simp only [applyDeletes, hdel]
      exact ⟨ht, hnd⟩
    · obtain ⟨u, hfind, husys, htypes⟩ := deleteType_ok s d.id s1 hdel
      have htne : ¬(t.id = d.id) := by
        intro heq
        have hft : s.types.find? (fun x => x.id == d.id) = some t := by
          rw [← heq]
          exact find_id_of_nodup s.types t hnd ht
        rw [hfind] at hft
        have hut : u = t := Option.some.inj hft
        rw [hut, hsys] at husys
        exact Bool.noConfusion husys
      have ht1 : t ∈ s1.types := by
        rw [htypes]
        exact List.mem_filter.mpr ⟨ht, by simpa using htne⟩
      have hnd1 : (s1.types.map (fun x => x.id)).Nodup := by
        rw [htypes]
        exact hnd.sublist ((List.filter_sublist _).map _)
      have hrec := ih s1 t hnd1 ht1 hsys
      simpa only [applyDeletes, hdel] using hrec

/-- System types survive the create-or-update loop in every branch, and
id-distinctness is preserved. -/
theorem applyUpserts_pres_system (ent : EntityKind) (m : List TypeRec) :
    ∀ (ds : List TypeWithDescription) (s : TaxonomyStore) (t : TypeRec),
    (s.types.map (fun x => x.id)).Nodup → t ∈ s.types → t.is_system = true →
    t ∈ (applyUpserts ent m s ds).1.types ∧
      ((applyUpserts ent m s ds).1.types.map (fun x => x.id)).Nodup := by
  intro ds
  induction ds with
  | nil =>
    intro s t hnd ht _
    exact ⟨ht, hnd⟩
  | cons d rest ih =>
    intro s t hnd ht hsys
    rcases hm : mapGet m d.value with _ | u
    · rcases hc : s.createType d.value ent d.description with e | s1
      · simp only [applyUpserts, hm, hc]
        exact ⟨ht, hnd⟩
      · obtain ⟨hany, htypes⟩ := createType_ok s d.value ent d.description s1 hc
        have ht1 : t ∈ s1.types := by
          rw [htypes]
          exact List.mem_append_left _ ht
        have hnd1 : (s1.types.map (fun x => x.id)).Nodup := by
          rw [htypes, List.map_append]
          refine List.Nodup.append hnd (by simp) ?_
          simpa [List.disjoint_singleton] using freshId_not_mem s
        have hrec := ih s1 t hnd1 ht1 hsys
        simpa only [applyUpserts, hm, hc] using hrec
    · by_cases hd : (u.description == d.description) = true
      · have hrec := ih s t hnd ht hsys
        simpa only [applyUpserts, hm, if_pos hd] using hrec
      · rcases hu : s.updateType u.id d.description with e | s1
        · simp only [applyUpserts, hm, if_neg hd, hu]
          exact ⟨ht, hnd⟩
        · obtain ⟨w, hfind, hwsys, htypes⟩ := updateType_ok s u.id d.description s1 hu
          have htne : ¬(t.id = u.id) := by
            intro heq
            have hft : s.types.find? (fun x => x.id == u.id) = some t := by
              rw [← heq]
              exact find_id_of_nodup s.types t hnd ht
            rw [hfind] at hft
            have hwt : w = t := Option.some.inj hft
            rw [hwt, hsys] at hwsys
            exact Bool.noConfusion hwsys
          have ht1 : t ∈ s1.types := by
            rw [htypes]
            refine List.mem_map.mpr ⟨t, ht, ?_⟩
            rw [if_neg (by simpa using htne)]
          have hnd1 : (s1.types.map (fun x => x.id)).Nodup := by
            rw [htypes, ids_map_upd]
            exact hnd
          have hrec := ih s1 t hnd1 ht1 hsys
          simpa only [applyUpserts, hm, if_neg hd, hu] using hrec

/-- C1: reconciliation (for either entity kind, hence for
`updateNodeTypes` and `updateRelationshipTypes`) leaves every
system-protected type in the store untouched, whether or not its value
occurs in the desired list: the engine's deletion filter skips system
types, and an attempted description update of a system type is rejected
by the store, so the record survives unchanged in all branches. -/
theorem updateTypes_preserves_system (ent : EntityKind) (s : TaxonomyStore)
    (desired : List TypeWithDescription) (t : TypeRec)
    (hwf : Wf s) (ht : t ∈ s.types) (hsys : t.is_system = true) :
    t ∈ (updateTypes ent s desired).1.types := by
  have h1 := applyDeletes_pres_system (typesToDelete (s.list ent) desired) s t hwf ht hsys
  rcases he : (applyDeletes s (typesToDelete (s.list ent) desired)).2.2 with _ | e
  · have h2 := applyUpserts_pres_system ent (s.list ent) desired
      (applyDeletes s (typesToDelete (s.list ent) desired)).1 t h1.2 h1.1 hsys
    simp only [updateTypes, he]
    exact h2.1
  · simp only [updateTypes, he]
    exact h1.1

/-- C1 witness: the system type `PERSON` survives a reconciliation whose
desired list mentions it with a different description (the run aborts
with `Forbidden`, but the record is untouched). -/
theorem updateTypes_preserves_system_witness :
    sysPerson ∈ (updateTypes EntityKind.node sC1 desiredC1).1.types :=
  updateTypes_preserves_system EntityKind.node sC1 desiredC1 sysPerson
    (by unfold Wf; decide) (by decide) (by decide)

/-- The deletion loop's final store is the replay of its applied trace. -/
theorem applyDeletes_replay (ent : EntityKind) : ∀ (ds : List TypeRec) (s : TaxonomyStore),
    (applyDeletes s ds).1 = applyOps ent s (applyDeletes s ds).2.1 := by
  intro ds
  induction ds with
  | nil =>
    intro s
    rfl
  | cons d rest ih =>
    intro s
    rcases hdel : s.deleteType d.id with e | s1
    · simp only [applyDeletes, hdel]
      rfl
    · simp only [applyDeletes, hdel]
      rw [ih s1]
      simp only [applyOps, List.foldl_cons, applyOp, hdel]

/-- The create-or-update loop's final store is the replay of its applied
trace. -/
theorem applyUpserts_replay (ent : EntityKind) (m : List TypeRec) :
    ∀ (ds : List TypeWithDescription) (s : TaxonomyStore),
    (applyUpserts ent m s ds).1 = applyOps ent s (applyUpserts ent m s ds).2.1 := by
  intro ds
  induction ds with
  | nil =>
    intro s
    rfl
  | cons d rest ih =>
    intro s
    rcases hm : mapGet m d.value with _ | u
    · rcases hc : s.createType d.value ent d.description with e | s1
      · simp only [applyUpserts, hm, hc]
        rfl
      · simp only [applyUpserts, hm, hc]
        rw [ih s1]
        simp only [applyOps, List.foldl_cons, applyOp, hc]
    · by_cases hd : (u.description == d.description) = true
      · simp only [applyUpserts, hm, if_pos hd]
        exact ih s
      · rcases hu : s.updateType u.id d.description with e | s1
        · simp only [applyUpserts, hm, if_neg hd, hu]
          rfl
        · simp only [applyUpserts, hm, if_neg hd, hu]
          rw [ih s1]
          simp only [applyOps, List.foldl_cons, applyOp, hu]

/-- The reconciliation run's final store is the replay of its applied
trace: nothing that was applied is ever rolled back, also when the run
ends in an error. -/
theorem updateTypes_replay (ent : EntityKind) (s : TaxonomyStore)
    (desired : List TypeWithDescription) :
    (updateTypes ent s desired).1 = applyOps ent s (updateTypes ent s desired).2.1 := by
  rcases he : (applyDeletes s (typesToDelete (s.list ent) desired)).2.2 with _ | e
  · have h1 := applyDeletes_replay ent (typesToDelete (s.list ent) desired) s
    have h2 := applyUpserts_replay ent (s.list ent) desired
      (applyDeletes s (typesToDelete (s.list ent) desired)).1
    simp only [updateTypes, he]
    rw [h2, h1]
    simp [applyOps, List.foldl_append]
  · simp only [updateTypes, he]
    exact applyDeletes_replay ent _ s

/-- C4 (amended): per-item failures are not collected — the first failing
step aborts reconciliation.  A failing delete stops the deletion loop
before any further item is processed; a failing update or create stops
the upsert loop likewise, and the error propagates to the caller.
Already-applied steps are not rolled back: the final store is always the
replay of the applied trace over the initial store. -/
theorem updateTypes_first_error_aborts :
    (∀ (s : TaxonomyStore) (t : TypeRec) (ts : List TypeRec) (e : TaxErr),
      s.deleteType t.id = .error e → applyDeletes s (t :: ts) = (s, [], some e)) ∧
    (∀ (ent : EntityKind) (m : List TypeRec) (s : TaxonomyStore) (d : TypeWithDescription)
      (ds : List TypeWithDescription) (u : TypeRec) (e : TaxErr),
      mapGet m d.value = some u → (u.description == d.description) = false →
      s.updateType u.id d.description = .error e →
      applyUpserts ent m s (d :: ds) = (s, [], some e)) ∧
    (∀ (ent : EntityKind) (m : List TypeRec) (s : TaxonomyStore) (d : TypeWithDescription)
      (ds : List TypeWithDescription) (e : TaxErr),
      mapGet m d.value = none → s.createType d.value ent d.description = .error e →
      applyUpserts ent m s (d :: ds) = (s, [], some e)) ∧
    (∀ (ent : EntityKind) (s : TaxonomyStore) (desired : List TypeWithDescription),
      (updateTypes ent s desired).1 = applyOps ent s (updateTypes ent s desired).2.1) := by
  refine ⟨?_, ?_, ?_, ?_⟩
  · intro s t ts e h
    simp only [applyDeletes, h]
  · intro ent m s d ds u e hm hd h
    simp only [applyUpserts, hm]
    rw [if_neg (by simp [hd]), h]
  · intro ent m s d ds e hm h
    simp only [applyUpserts, hm]
    rw [h]
  · exact updateTypes_replay

/-- C4 witness: the amended abort behaviour at a concrete input — the
update of the system type fails with `Forbidden` and the following
desired entry `NEW` is never processed. -/
theorem updateTypes_first_error_aborts_witness :
    applyUpserts EntityKind.node [sysPerson] sC2 desiredC4 = (sC2, [], some TaxErr.forbidden) :=
  updateTypes_first_error_aborts.2.1 EntityKind.node [sysPerson] sC2
    ⟨"PERSON", some "q"⟩ [⟨"NEW", none⟩] sysPerson TaxErr.forbidden rfl rfl rfl

/-- C4 counterexample: with the system type `PERSON` (description
changed in the desired list) and the new value `NEW`, reconciliation
does not continue to completion with collected errors: it propagates
`Forbidden` to the caller, never creates `NEW`, and the deletion of the
stale type `OLD` applied before the failure is not rolled back. -/
theorem updateTypes_error_not_collected :
    (updateTypes EntityKind.node sC1 desiredC4).2.2 = some TaxErr.forbidden ∧
    (updateTypes EntityKind.node sC1 desiredC4).1.types.any
      (fun t => t.value == "NEW") = false ∧
    TaxOp.del oldRec.id ∈ (updateTypes EntityKind.node sC1 desiredC4).2.1 := by
  exact ⟨rfl, by decide, by decide⟩

/-- With distinct desired values, the tail never mentions the head value. -/
theorem values_any_false_of_nodup (d : TypeWithDescription) (ds : List TypeWithDescription)
    (h : ((d :: ds).map (fun x => x.value)).Nodup) :
    (ds.any (fun x => x.value == d.value)) = false := by
  rw [List.map_cons, List.nodup_cons] at h
  cases hh : ds.any (fun x => x.value == d.value)
  · rfl
  · obtain ⟨x, hx, hbx⟩ := List.any_eq_true.mp hh
    exact absurd (List.mem_map.mpr ⟨x, hx, eq_of_beq hbx⟩) h.1

/-- The description updater preserves the `value` field. -/
theorem updFn_value (i : Nat) (desc : Option String) (x : TypeRec) :
    ((fun x : TypeRec =>
      if x.id == i then { x with description := desc } else x) x).value = x.value := by
  by_cases h : (x.id == i) = true
  · simp [h]
  · simp [h]

/-- The description updater preserves the `is_system` field. -/
theorem updFn_system (i : Nat) (desc : Option String) (x : TypeRec) :
    ((fun x : TypeRec =>
      if x.id == i then { x with description := desc } else x) x).is_system = x.is_system := by
  by_cases h : (x.id == i) = true
  · simp [h]
  · simp [h]

/-- Every deletion target is a non-system member of the store. -/
theorem typesToDelete_spec (ent : EntityKind) (s : TaxonomyStore)
    (desired : List TypeWithDescription) :
    ∀ t ∈ typesToDelete (s.list ent) desired, t ∈ s.types ∧ t.is_system = false := by
  intro t ht
  have h1 := List.mem_filter.mp ht
  have h2 := List.mem_filter.mp h1.1
  refine ⟨h2.1, ?_⟩
  have h3 := h1.2
  simp only [Bool.and_eq_true, Bool.not_eq_true'] at h3
  exact h3.1

/-- The deletion targets of a well-formed store have distinct ids. -/
theorem typesToDelete_nodup (ent : EntityKind) (s : TaxonomyStore)
    (desired : List TypeWithDescription) (hwf : Wf s) :
    ((typesToDelete (s.list ent) desired).map (fun t => t.id)).Nodup := by
  have hsub : List.Sublist (typesToDelete (s.list ent) desired) s.types :=
    (List.filter_sublist _).trans (List.filter_sublist _)
  exact hwf.sublist (hsub.map _)

/-- When every desired entry already matches its map entry (same value in
the map, same description), the upsert loop performs no operation and
leaves the store unchanged. -/
theorem upserts_noop (ent : EntityKind) (m : List TypeRec) (s : TaxonomyStore) :
    ∀ rem : List TypeWithDescription,
    (∀ d ∈ rem, ∃ u, mapGet m d.value = some u ∧ u.description = d.description) →
    applyUpserts ent m s rem = (s, [], none) := by
  intro rem
  induction rem with
  | nil =>
    intro _
    rfl
  | cons d ds ih =>
    intro h
    obtain ⟨u, hu, hdesc⟩ := h d (List.mem_cons_self _ _)
    have hb : (u.description == d.description) = true := by simp [hdesc]
    simp only [applyUpserts, hu, if_pos hb]
    exact ih (fun d' hd' => h d' (List.mem_cons_of_mem d hd'))

/-- When every non-system stored type's value occurs in the desired list
and every desired entry's lookup already carries the desired
description, reconciliation is a no-op: no operation is applied, no
error is raised, and the store is unchanged. -/
theorem updateTypes_noop (ent : EntityKind) (s : TaxonomyStore)
    (desired : List TypeWithDescription)
    (h1 : ∀ t ∈ s.list ent, t.is_system = false →
      desired.any (fun d => d.value == t.value) = true)
    (h2 : ∀ d ∈ desired, ∃ u, mapGet (s.list ent) d.value = some u ∧
      u.description = d.description) :
    updateTypes ent s desired = (s, [], none) := by
  have hdels : typesToDelete (s.list ent) desired = [] := by
    rw [typesToDelete, List.filter_eq_nil_iff]
    intro t ht
    by_cases hsys : t.is_system = true
    · simp [hsys]
    · have hbf : t.is_system = false := by simpa using hsys
      have hany := h1 t ht hbf
      simp [hany, hbf]
  have hup := upserts_noop ent (s.list ent) s desired h2
  simp only [updateTypes, hdels, applyDeletes, hup]
  rfl

/-- C3 (amended): reconciliation matches desired entries to stored types
by raw string equality, with no normalization before the diff: a stored
non-system type whose exact value occurs nowhere in the desired list is
deleted, even when a desired entry normalizes to that stored value
(normalization being applied only by the Settings UI before the call and
by the store on create). -/
theorem updateTypes_raw_match_deletes (ent : EntityKind) (s : TaxonomyStore)
    (desired : List TypeWithDescription) (t : TypeRec)
    (hwf : Wf s) (ht : t ∈ s.list ent) (hsys : t.is_system = false)
    (hmiss : ∀ d ∈ desired, ¬(d.value = t.value)) :
    TaxOp.del t.id ∈ (updateTypes ent s desired).2.1 := by
  have hanyf : desired.any (fun d => d.value == t.value) = false := by
    cases hb : desired.any (fun d => d.value == t.value)
    · rfl
    · obtain ⟨d, hd, hbd⟩ := List.any_eq_true.mp hb
      exact absurd (eq_of_beq hbd) (hmiss d hd)
  have htdel : t ∈ typesToDelete (s.list ent) desired :=
    List.mem_filter.mpr ⟨ht, by simp [hsys, hanyf]⟩
  have hchar := applyDeletes_char (typesToDelete (s.list ent) desired) s hwf
    (typesToDelete_spec ent s desired) (typesToDelete_nodup ent s desired hwf)
  simp only [updateTypes, hchar]
  exact List.mem_append_left _ (List.mem_map.mpr ⟨t, htdel, rfl⟩)

/-- C3 witness: the stored user type `PERSON` is deleted when the desired
list only carries the non-normalized spelling `person`. -/
theorem updateTypes_raw_match_deletes_witness :
    TaxOp.del 1 ∈ (updateTypes EntityKind.node sPerson desiredLower).2.1 :=
  updateTypes_raw_match_deletes EntityKind.node sPerson desiredLower
    ⟨1, "PERSON", EntityKind.node, none, false⟩ (by unfold Wf; decide) (by decide)
    (by decide) (by decide)

/-- C3 counterexample: the desired entry `person` differs from the stored
user type `PERSON` only by case, yet reconciliation does not match it to
the stored type: it deletes the stored type and creates the entry anew
(the store then normalizes the created value back to `PERSON`). -/
theorem updateTypes_no_normalization_before_diff :
    formatTypeValue "person" = "PERSON" ∧
    (updateTypes EntityKind.node sPerson desiredLower).2.1 =
      [TaxOp.del 1, TaxOp.cre "person" none] := by
  exact ⟨by decide, by decide⟩

/-- Postcondition of a successful upsert loop over a store whose ids are
distinct, against normalized, pairwise-distinct desired values: every
non-system value of the final store occurs in the desired list, every
processed entry's lookup carries the desired description, and lookups of
untouched values are preserved. -/
theorem upserts_master (ent : EntityKind) (m : List TypeRec)
    (desired : List TypeWithDescription) :
    ∀ (rem : List TypeWithDescription) (s s1 : TaxonomyStore) (ops : List TaxOp),
    (∀ d ∈ rem, d ∈ desired) →
    ((rem.map (fun d => d.value)).Nodup) →
    (∀ d ∈ rem, formatTypeValue d.value = d.value) →
    ((s.types.map (fun x => x.id)).Nodup) →
    (∀ t ∈ s.list ent, t.is_system = false →
      desired.any (fun d => d.value == t.value) = true) →
    (∀ d ∈ rem, mapGet m d.value = mapGet (s.list ent) d.value) →
    applyUpserts ent m s rem = (s1, ops, none) →
    ((∀ t ∈ s1.list ent, t.is_system = false →
        desired.any (fun d => d.value == t.value) = true) ∧
     (∀ d ∈ rem, ∃ u, mapGet (s1.list ent) d.value = some u ∧
        u.description = d.description) ∧
     (∀ v, (rem.any (fun d => d.value == v)) = false →
        mapGet (s1.list ent) v = mapGet (s.list ent) v)) := by
  intro rem
  induction rem with
  | nil =>
    intro s s1 ops _ _ _ _ hH1 _ hrun
    simp only [applyUpserts] at hrun
    have hs : s = s1 := congrArg Prod.fst hrun
    subst hs
    exact ⟨hH1, by simp, fun v _ => rfl⟩
  | cons d ds ih =>
    intro s s1 ops hsub hvals hnorm hnd hH1 hI2 hrun
    have hvds : (ds.map (fun x => x.value)).Nodup := by
      rw [List.map_cons, List.nodup_cons] at hvals
      exact hvals.2
    have hanyf : (ds.any (fun x => x.value == d.value)) = false :=
      values_any_false_of_nodup d ds hvals
    rcases hm : mapGet m d.value with _ | u
    · rcases hc : s.createType d.value ent d.description with e | s2
      · simp only [applyUpserts, hm, hc] at hrun
        exact absurd (congrArg (fun p => p.2.2) hrun) (by simp)
      · obtain ⟨hany, htypes⟩ := createType_ok s d.value ent d.description s2 hc
        rw [hnorm d (List.mem_cons_self _ _)] at htypes
        have hlist : s2.list ent =
            s.list ent ++ [⟨freshId s, d.value, ent, d.description, false⟩] := by
          unfold TaxonomyStore.list
          rw [htypes, List.filter_append]
          simp
        have hnd2 : (s2.types.map (fun x => x.id)).Nodup := by
          rw [htypes, List.map_append]
          refine List.Nodup.append hnd (by simp) ?_
          simpa [List.disjoint_singleton] using freshId_not_mem s
        have hH1' : ∀ t ∈ s2.list ent, t.is_system = false →
            desired.any (fun d' => d'.value == t.value) = true := by
          intro t ht hts
          rw [hlist] at ht
          rcases List.mem_append.mp ht with h | h
          · exact hH1 t h hts
          · have heq : t = ⟨freshId s, d.value, ent, d.description, false⟩ := by
              simpa using h
            subst heq
            exact List.any_eq_true.mpr ⟨d, hsub d (List.mem_cons_self _ _), by simp⟩
        have hI2' : ∀ d' ∈ ds, mapGet m d'.value = mapGet (s2.list ent) d'.value := by
          intro d' hd'
          have hne : ¬((⟨freshId s, d.value, ent, d.description, false⟩ : TypeRec).value
              = d'.value) := by
            show ¬(d.value = d'.value)
            intro heq
            rw [List.map_cons, List.nodup_cons] at hvals
            exact hvals.1 (List.mem_map.mpr ⟨d', hd', heq.symm⟩)
          rw [hlist, mapGet_append_ne _ _ _ hne]
          exact hI2 d' (List.mem_cons_of_mem d hd')
        simp only [applyUpserts, hm, hc] at hrun
        have hs1 : (applyUpserts ent m s2 ds).1 = s1 := congrArg Prod.fst hrun
        have hnone : (applyUpserts ent m s2 ds).2.2 = none :=
          congrArg (fun p => p.2.2) hrun
        have hrun2 : applyUpserts ent m s2 ds =
            ((applyUpserts ent m s2 ds).1, (applyUpserts ent m s2 ds).2.1, none) := by
          rw [← hnone]
        have ihr := ih s2 (applyUpserts ent m s2 ds).1 (applyUpserts ent m s2 ds).2.1
          (fun d' hd' => hsub d' (List.mem_cons_of_mem d hd')) hvds
          (fun d' hd' => hnorm d' (List.mem_cons_of_mem d hd')) hnd2 hH1' hI2' hrun2
        rw [← hs1]
        refine ⟨ihr.1, ?_, ?_⟩
        · intro d' hd'
          rcases List.mem_cons.mp hd' with h | h
          · subst h
            refine ⟨⟨freshId s, d'.value, ent, d'.description, false⟩, ?_, rfl⟩
            rw [ihr.2.2 d'.value hanyf, hlist]
            exact mapGet_append_eq _ _ _ rfl
          · exact ihr.2.1 d' h
        · intro v hv
          rw [List.any_cons, Bool.or_eq_false_iff] at hv
          have hne : ¬((⟨freshId s, d.value, ent, d.description, false⟩ : TypeRec).value
              = v) := by
            show ¬(d.value = v)
            intro heq
            rw [heq] at hv
            simp at hv
          rw [ihr.2.2 v hv.2, hlist, mapGet_append_ne _ _ _ hne]
    · by_cases hd : (u.description == d.description) = true
      · simp only [applyUpserts, hm, if_pos hd] at hrun
        have ihr := ih s s1 ops (fun d' hd' => hsub d' (List.mem_cons_of_mem d hd')) hvds
          (fun d' hd' => hnorm d' (List.mem_cons_of_mem d hd')) hnd hH1
          (fun d' hd' => hI2 d' (List.mem_cons_of_mem d hd')) hrun
        refine ⟨ihr.1, ?_, ?_⟩
        · intro d' hd'
          rcases List.mem_cons.mp hd' with h | h
          · subst h
            refine ⟨u, ?_, eq_of_beq hd⟩
            rw [ihr.2.2 d'.value hanyf, ← hI2 d' (List.mem_cons_self _ _)]
            exact hm
          · exact ihr.2.1 d' h
        · intro v hv
          rw [List.any_cons, Bool.or_eq_false_iff] at hv
          exact ihr.2.2 v hv.2
      · rcases hu : s.updateType u.id d.description with e | s2
        · simp only [applyUpserts, hm, if_neg hd, hu] at hrun
          exact absurd (congrArg (fun p => p.2.2) hrun) (by simp)
        · obtain ⟨w, hfind, hwsys, htypes⟩ := updateType_ok s u.id d.description s2 hu
          have hmS : mapGet (s.list ent) d.value = some u := by
            rw [← hI2 d (List.mem_cons_self _ _)]
            exact hm
          obtain ⟨humem, huval⟩ := mapGet_mem _ _ _ hmS
          have humem' : u ∈ s.types := (List.mem_filter.mp humem).1
          have hlist : s2.list ent = (s.list ent).map
              (fun x => if x.id == u.id then { x with description := d.description } else x) := by
            unfold TaxonomyStore.list
            rw [htypes]
            exact filter_map_upd _ _ _ _
          have hnd2 : (s2.types.map (fun x => x.id)).Nodup := by
            rw [htypes, ids_map_upd]
            exact hnd
          have hfu : ∀ x ∈ s.list ent, (x.id == u.id) = true → x = u := by
            intro x hx hbx
            exact nodup_id_inj s.types x u hnd (List.mem_filter.mp hx).1 humem'
              (by simpa using hbx)
          have hH1' : ∀ t ∈ s2.list ent, t.is_system = false →
              desired.any (fun d' => d'.value == t.value) = true := by
            intro t ht hts
            rw [hlist] at ht
            obtain ⟨x, hx, hfx⟩ := List.mem_map.mp ht
            subst hfx
            rw [updFn_value]
            rw [updFn_system] at hts
            exact hH1 x hx hts
          have hI2' : ∀ d' ∈ ds, mapGet m d'.value = mapGet (s2.list ent) d'.value := by
            intro d' hd'
            have hfix : ∀ x ∈ s.list ent, x.value = d'.value →
                (fun x : TypeRec =>
                  if x.id == u.id then { x with description := d.description } else x) x = x := by
              intro x hx hxv
              by_cases hbx : (x.id == u.id) = true
              · exfalso
                have hxu := hfu x hx hbx
                rw [hxu, huval] at hxv
                rw [List.map_cons, List.nodup_cons] at hvals
                exact hvals.1 (List.mem_map.mpr ⟨d', hd', hxv.symm⟩)
              · simp [hbx]
            rw [hlist, mapGet_map_fix _ _ _ (fun x _ => updFn_value u.id d.description x) hfix]
            exact hI2 d' (List.mem_cons_of_mem d hd')
          simp only [applyUpserts, hm, if_neg hd, hu] at hrun
          have hs1 : (applyUpserts ent m s2 ds).1 = s1 := congrArg Prod.fst hrun
          have hnone : (applyUpserts ent m s2 ds).2.2 = none :=
            congrArg (fun p => p.2.2) hrun
          have hrun2 : applyUpserts ent m s2 ds =
              ((applyUpserts ent m s2 ds).1, (applyUpserts ent m s2 ds).2.1, none) := by
            rw [← hnone]
          have ihr := ih s2 (applyUpserts ent m s2 ds).1 (applyUpserts ent m s2 ds).2.1
            (fun d' hd' => hsub d' (List.mem_cons_of_mem d hd')) hvds
            (fun d' hd' => hnorm d' (List.mem_cons_of_mem d hd')) hnd2 hH1' hI2' hrun2
          rw [← hs1]
          refine ⟨ihr.1, ?_, ?_⟩
          · intro d' hd'
            rcases List.mem_cons.mp hd' with h | h
            · subst h
              refine ⟨{ u with description := d'.description }, ?_, rfl⟩
              rw [ihr.2.2 d'.value hanyf, hlist]
              have hsome := mapGet_map_some (s.list ent)
                (fun x => if x.id == u.id then { x with description := d'.description } else x)
                d'.value u (fun x _ => updFn_value u.id d'.description x) hmS
              rw [hsome]
              simp
            · exact ihr.2.1 d' h
          · intro v hv
            rw [List.any_cons, Bool.or_eq_false_iff] at hv
            have hfixv : ∀ x ∈ s.list ent, x.value = v →
                (fun x : TypeRec =>
                  if x.id == u.id then { x with description := d.description } else x) x = x := by
              intro x hx hxv
              by_cases hbx : (x.id == u.id) = true
              · exfalso
                have hxu := hfu x hx hbx
                rw [hxu, huval] at hxv
                rw [hxv] at hv
                simp at hv
              · simp [hbx]
            rw [ihr.2.2 v hv.2, hlist,
              mapGet_map_fix _ _ _ (fun x _ => updFn_value u.id d.description x) hfixv]

/-- C2 (amended): reconciliation is idempotent provided the desired
values are already normalized (fixed points of `formatTypeValue`) and
pairwise distinct, and the first run succeeds: running it again with the
same desired list performs zero delete, update or create operations,
raises no error, and leaves the store unchanged. -/
theorem updateTypes_idempotent (ent : EntityKind) (s : TaxonomyStore)
    (desired : List TypeWithDescription)
    (hwf : Wf s)
    (hnorm : ∀ d ∈ desired, formatTypeValue d.value = d.value)
    (hdist : (desired.map (fun d => d.value)).Nodup)
    (hok : (updateTypes ent s desired).2.2 = none) :
    updateTypes ent (updateTypes ent s desired).1 desired =
      ((updateTypes ent s desired).1, [], none) := by
  have hchar := applyDeletes_char (typesToDelete (s.list ent) desired) s hwf
    (typesToDelete_spec ent s desired) (typesToDelete_nodup ent s desired hwf)
  have hnd0 : ((⟨s.types.filter (fun u =>
      !(idMem ((typesToDelete (s.list ent) desired).map (fun t => t.id)) u.id))⟩ :
      TaxonomyStore).types.map (fun x => x.id)).Nodup :=
    hwf.sublist ((List.filter_sublist _).map _)
  have hlist0 : (⟨s.types.filter (fun u =>
      !(idMem ((typesToDelete (s.list ent) desired).map (fun t => t.id)) u.id))⟩ :
      TaxonomyStore).list ent
      = (s.list ent).filter (fun u =>
        !(idMem ((typesToDelete (s.list ent) desired).map (fun t => t.id)) u.id)) := by
    unfold TaxonomyStore.list
    rw [List.filter_filter, List.filter_filter]
    exact List.filter_congr (fun a _ => Bool.and_comm _ _)
  have hH1_0 : ∀ t ∈ (⟨s.types.filter (fun u =>
      !(idMem ((typesToDelete (s.list ent) desired).map (fun t => t.id)) u.id))⟩ :
      TaxonomyStore).list ent, t.is_system = false →
      desired.any (fun d => d.value == t.value) = true := by
    intro t ht hts
    rw [hlist0] at ht
    have h1 := List.mem_filter.mp ht
    cases hb : desired.any (fun d => d.value == t.value)
    · exfalso
      have htin : t ∈ typesToDelete (s.list ent) desired := by
        refine List.mem_filter.mpr ⟨h1.1, ?_⟩
        simp [hts, hb]
      have hidm : idMem ((typesToDelete (s.list ent) desired).map (fun x => x.id)) t.id
          = true :=
        (idMem_iff _ _).mpr (List.mem_map.mpr ⟨t, htin, rfl⟩)
      have hcontra := h1.2
      rw [hidm] at hcontra
      simp at hcontra
    · rfl
  have hI2_0 : ∀ d ∈ desired, mapGet (s.list ent) d.value =
      mapGet ((⟨s.types.filter (fun u =>
        !(idMem ((typesToDelete (s.list ent) desired).map (fun t => t.id)) u.id))⟩ :
        TaxonomyStore).list ent) d.value := by
    intro d hd
    rw [hlist0, mapGet_filter]
    intro t ht htv
    cases hb : idMem ((typesToDelete (s.list ent) desired).map (fun x => x.id)) t.id
    · simp
    · exfalso
      obtain ⟨w, hwdel, hwid⟩ := List.mem_map.mp ((idMem_iff _ _).mp hb)
      have hw : w = t := nodup_id_inj s.types w t hwf
        (typesToDelete_spec ent s desired w hwdel).1 (List.mem_filter.mp ht).1 hwid
      subst hw
      have hpred := (List.mem_filter.mp hwdel).2
      simp only [Bool.and_eq_true, Bool.not_eq_true'] at hpred
      have hany : desired.any (fun d' => d'.value == w.value) = true :=
        List.any_eq_true.mpr ⟨d, hd, by simp [htv]⟩
      rw [hany] at hpred
      exact Bool.noConfusion hpred.2
  simp only [updateTypes, hchar] at hok
  have hrun2 : applyUpserts ent (s.list ent)
      ⟨s.types.filter (fun u =>
        !(idMem ((typesToDelete (s.list ent) desired).map (fun t => t.id)) u.id))⟩ desired =
      ((applyUpserts ent (s.list ent)
        ⟨s.types.filter (fun u =>
          !(idMem ((typesToDelete (s.list ent) desired).map (fun t => t.id)) u.id))⟩ desired).1,
       (applyUpserts ent (s.list ent)
        ⟨s.types.filter (fun u =>
          !(idMem ((typesToDelete (s.list ent) desired).map (fun t => t.id)) u.id))⟩ desired).2.1,
       none) := by
    rw [← hok]
  have hmaster := upserts_master ent (s.list ent) desired desired
    ⟨s.types.filter (fun u =>
      !(idMem ((typesToDelete (s.list ent) desired).map (fun t => t.id)) u.id))⟩
    (applyUpserts ent (s.list ent)
      ⟨s.types.filter (fun u =>
        !(idMem ((typesToDelete (s.list ent) desired).map (fun t => t.id)) u.id))⟩ desired).1
    (applyUpserts ent (s.list ent)
      ⟨s.types.filter (fun u =>
        !(idMem ((typesToDelete (s.list ent) desired).map (fun t => t.id)) u.id))⟩ desired).2.1
    (fun d hd => hd) hdist hnorm hnd0 hH1_0 hI2_0 hrun2
  have hfst : (updateTypes ent s desired).1 =
      (applyUpserts ent (s.list ent)
        ⟨s.types.filter (fun u =>
          !(idMem ((typesToDelete (s.list ent) desired).map (fun t => t.id)) u.id))⟩ desired).1 := by
    simp only [updateTypes, hchar]
  rw [hfst]
  exact updateTypes_noop ent _ desired hmaster.1 hmaster.2.1

/-- C2 counterexample: with a desired value that is not normalized (the
lowercase `person` against an empty store), the first run succeeds by
creating the normalized `PERSON`, but the second run is not a no-op: it
deletes the stored `PERSON` (whose raw value does not match `person`)
and creates it again. -/
theorem updateTypes_not_idempotent_raw :
    (updateTypes EntityKind.node sEmpty desiredLower).2.2 = none ∧
    (updateTypes EntityKind.node
        (updateTypes EntityKind.node sEmpty desiredLower).1 desiredLower).2.1 =
      [TaxOp.del 1, TaxOp.cre "person" none] := by
  exact ⟨rfl, by decide⟩

/-- C2 witness: the amended idempotence at a concrete store (one system
type whose description matches, one new user value): the second run
applies zero operations. -/
theorem updateTypes_idempotent_witness :
    updateTypes EntityKind.node (updateTypes EntityKind.node sC2 desiredC2).1 desiredC2 =
      ((updateTypes EntityKind.node sC2 desiredC2).1, [], none) :=
  updateTypes_idempotent EntityKind.node sC2 desiredC2 (by unfold Wf; decide)
    (by decide) (by decide) (by decide)

end OSFiler
